import Mathlib

/-!
Verification of the HanziMaster TTS service core (`main.py`): the pinyin
normalizer `pinyin_to_sapi`, the SSML request builder `build_ssml`, and the
`used_phoneme` flag computed by the `/synthesize` endpoint.

Strings are modelled as Lean `String` (a list of Unicode scalar values, which
matches Python's per-codepoint iteration).  The Python character predicates
`str.lower`, `str.isalpha` and `str.isdigit` are Unicode-wide in Python; they
are embedded here restricted to the character repertoire this service works
with (ASCII letters and digits, and the precomposed tone-marked vowels of the
`tone_marks` table), and are the identity / `false` elsewhere.
-/

/-- The `tone_marks` dict of `pinyin_to_sapi` in `main.py`: each entry is
`(marked vowel, (base letter, tone digit))`, in source order. -/
def toneMarks : List (Char × Char × Char) :=
  [('ā', 'a', '1'), ('á', 'a', '2'), ('ǎ', 'a', '3'), ('à', 'a', '4'),
   ('ē', 'e', '1'), ('é', 'e', '2'), ('ě', 'e', '3'), ('è', 'e', '4'),
   ('ī', 'i', '1'), ('í', 'i', '2'), ('ǐ', 'i', '3'), ('ì', 'i', '4'),
   ('ō', 'o', '1'), ('ó', 'o', '2'), ('ǒ', 'o', '3'), ('ò', 'o', '4'),
   ('ū', 'u', '1'), ('ú', 'u', '2'), ('ǔ', 'u', '3'), ('ù', 'u', '4'),
   ('ǖ', 'v', '1'), ('ǘ', 'v', '2'), ('ǚ', 'v', '3'), ('ǜ', 'v', '4'),
   ('ü', 'v', '5')]

/-- Dictionary lookup `tone_marks[char]` (`None` when `char not in tone_marks`). -/
def toneMarkTable (c : Char) : Option (Char × Char) :=
  match toneMarks.find? (fun e => e.1 == c) with
  | some e => some e.2
  | none => none

/-- Lowercase ASCII letters. -/
def lowerLetters : List Char :=
  ['a', 'b', 'c', 'd', 'e', 'f', 'g', 'h', 'i', 'j', 'k', 'l', 'm',
   'n', 'o', 'p', 'q', 'r', 's', 't', 'u', 'v', 'w', 'x', 'y', 'z']

/-- Uppercase ASCII letters. -/
def upperLetters : List Char :=
  ['A', 'B', 'C', 'D', 'E', 'F', 'G', 'H', 'I', 'J', 'K', 'L', 'M',
   'N', 'O', 'P', 'Q', 'R', 'S', 'T', 'U', 'V', 'W', 'X', 'Y', 'Z']

/-- The decimal digit characters.  Python's `char.isdigit()` accepts every
Unicode decimal digit; restricted here to the ASCII digits. -/
def digitChars : List Char :=
  ['0', '1', '2', '3', '4', '5', '6', '7', '8', '9']

/-- Lowercasing table for Python's `str.lower()`, restricted to the uppercase
ASCII letters and the uppercase counterparts of the tone-marked vowels;
`pyLower` is the identity on every other character. -/
def lowerPairs : List (Char × Char) :=
  (upperLetters.zip lowerLetters) ++
  [('Ā', 'ā'), ('Á', 'á'), ('Ǎ', 'ǎ'), ('À', 'à'),
   ('Ē', 'ē'), ('É', 'é'), ('Ě', 'ě'), ('È', 'è'),
   ('Ī', 'ī'), ('Í', 'í'), ('Ǐ', 'ǐ'), ('Ì', 'ì'),
   ('Ō', 'ō'), ('Ó', 'ó'), ('Ǒ', 'ǒ'), ('Ò', 'ò'),
   ('Ū', 'ū'), ('Ú', 'ú'), ('Ǔ', 'ǔ'), ('Ù', 'ù'),
   ('Ǖ', 'ǖ'), ('Ǘ', 'ǘ'), ('Ǚ', 'ǚ'), ('Ǜ', 'ǜ'), ('Ü', 'ü')]

/-- Python `str.lower()`, per character (see `lowerPairs`). -/
def pyLower (c : Char) : Char :=
  match lowerPairs.find? (fun e => e.1 == c) with
  | some e => e.2
  | none => c

/-- Python `char.isalpha()` on the characters this service sees: ASCII letters
and the tone-marked vowels (all of which are Unicode letters). -/
def pyIsAlpha (c : Char) : Bool :=
  decide (c ∈ lowerLetters) || decide (c ∈ upperLetters) || (toneMarkTable c).isSome

/-- Python `char.isdigit()` (see `digitChars`). -/
def pyIsDigit (c : Char) : Bool :=
  decide (c ∈ digitChars)

/-- The character-scanning loop of `pinyin_to_sapi`: state is
`(result, current_syllable, tone)`, exactly as in the source.  `tone` is a
string that is either empty or a single digit character. -/
def sapiAux : List Char → List (List Char) → List Char → List Char → List (List Char)
  | [], res, cur, tone =>
    if cur = [] then res
    else res ++ [cur ++ (if tone = [] then ['5'] else tone)]
  | c :: rest, res, cur, tone =>
    match toneMarkTable c with
    | some bt => sapiAux rest res (cur ++ [bt.1]) [bt.2]
    | none =>
      if c = ' ' then
        if cur = [] then sapiAux rest res cur tone
        else sapiAux rest (res ++ [cur ++ tone]) [] []
      else if pyIsAlpha c then sapiAux rest res (cur ++ [c]) tone
      else if pyIsDigit c then sapiAux rest res cur [c]
      else sapiAux rest res cur tone

/-- `" ".join(result)` at the character-list level. -/
def joinSpace : List (List Char) → List Char
  | [] => []
  | [t] => t
  | t :: t2 :: ts => t ++ ' ' :: joinSpace (t2 :: ts)

/-- `" ".join` on strings. -/
def spaceJoin (ts : List String) : String :=
  String.mk (joinSpace (ts.map String.data))

/-- `pinyin_to_sapi` from `main.py`: convert pinyin (with tone mark or number)
to SAPI phoneme format.  The scan runs over `pinyin.lower()`. -/
def pinyin_to_sapi (pinyin : String) : String :=
  if pinyin = "" then ""
  else String.mk (joinSpace (sapiAux (pinyin.data.map pyLower) [] [] []))

/-- The SSML template of `build_ssml` up to the interpolated `voice_id`. -/
def ssmlHead : String :=
  "<speak version=\"1.0\" xmlns=\"http://www.w3.org/2001/10/synthesis\" \n           xmlns:mstts=\"https://www.w3.org/2001/mstts\" xml:lang=\"zh-CN\">\n    <voice name=\""

/-- The SSML template between `voice_id` and `content`. -/
def ssmlMid : String :=
  "\">\n        "

/-- The SSML template after `content`. -/
def ssmlTail : String :=
  "\n    </voice>\n</speak>"

/-- Opening of the phoneme element up to the interpolated `sapi_pinyin`. -/
def phonemeOpen : String :=
  "<phoneme alphabet=\"sapi\" ph=\""

/-- Phoneme element between `sapi_pinyin` and `text`. -/
def phonemeMid : String :=
  "\">"

/-- Closing tag of the phoneme element. -/
def phonemeClose : String :=
  "</phoneme>"

/-- `build_ssml(text, voice_id, pinyin)` from `main.py`.  Python's
`if pinyin:` is truthy exactly when `pinyin` is neither `None` nor `""`. -/
def build_ssml (text : String) (voice_id : String) (pinyin : Option String) : String :=
  let content :=
    match pinyin with
    | some p =>
      if p = "" then text
      else phonemeOpen ++ pinyin_to_sapi p ++ phonemeMid ++ text ++ phonemeClose
    | none => text
  ssmlHead ++ voice_id ++ ssmlMid ++ content ++ ssmlTail

/-- `used_phoneme = bool(request.pinyin)` from the `/synthesize` endpoint. -/
def used_phoneme (pinyin : Option String) : Bool :=
  match pinyin with
  | some p => p != ""
  | none => false

/-- A plain (unmarked, lowercase ASCII) pinyin letter. -/
def isPlainLetter (c : Char) : Bool :=
  decide (c ∈ lowerLetters)

/-- A tone digit `1`–`5`. -/
def isToneDigit (c : Char) : Bool :=
  decide (c ∈ (['1', '2', '3', '4', '5'] : List Char))

/-- Does a syllable end in a (Python-decimal) digit? -/
def endsDigit (t : List Char) : Bool :=
  match t.getLast? with
  | some c => pyIsDigit c
  | none => false

/-- Closing a syllable at end of input: `current_syllable + (tone or "5")`
appends the default neutral tone `5` exactly when no tone digit is present. -/
def closeSyl (t : String) : String :=
  if endsDigit t.data then t else t ++ "5"

/-- Apply `closeSyl` to the last syllable only. -/
def closeLast : List String → List String
  | [] => []
  | [t] => [closeSyl t]
  | t :: t2 :: ts => t :: closeLast (t2 :: ts)

/-- A character the scanning loop silently ignores once lowercased: not a
tone-marked vowel, not a space, not alphabetic, not a decimal digit. -/
def ignoredLow (c : Char) : Bool :=
  (toneMarkTable c).isNone && !(c == ' ') && !(pyIsAlpha c) && !(pyIsDigit c)

/-- A raw input character the normalizer silently ignores (classification
happens on the lowercased character, as in the source). -/
def ignoredChar (c : Char) : Bool :=
  ignoredLow (pyLower c)

/-- Characters that can appear inside an emitted syllable. -/
def okChar (c : Char) : Bool :=
  pyIsAlpha c || pyIsDigit c

/-- Two consecutive spaces somewhere in the list. -/
def hasTwoSpaces : List Char → Bool
  | a :: b :: rest => (a == ' ' && b == ' ') || hasTwoSpaces (b :: rest)
  | _ => false

/-- Tone-number form: a single-space join of syllables, each made of plain
letters followed by exactly one tone digit `1`–`5` (e.g. `"xie4"`,
`"ni3 hao3"`). -/
def toneNumberForm (x : String) : Prop :=
  ∃ ts : List String, ts ≠ [] ∧
    (∀ t ∈ ts, ∃ ls d, ls ≠ [] ∧ (∀ c ∈ ls, isPlainLetter c = true) ∧
      isToneDigit d = true ∧ t.data = ls ++ [d]) ∧
    x = spaceJoin ts

/-! ### Step lemmas for the scanning loop -/

theorem sapiAux_nil (res : List (List Char)) (cur tone : List Char) :
    sapiAux [] res cur tone =
      if cur = [] then res
      else res ++ [cur ++ (if tone = [] then ['5'] else tone)] := rfl

theorem sapiAux_mark {c : Char} {bt : Char × Char} (h : toneMarkTable c = some bt)
    (rest : List Char) (res : List (List Char)) (cur tone : List Char) :
    sapiAux (c :: rest) res cur tone = sapiAux rest res (cur ++ [bt.1]) [bt.2] := by
  simp [sapiAux, h]

theorem sapiAux_space (rest : List Char) (res : List (List Char)) (cur tone : List Char) :
    sapiAux (' ' :: rest) res cur tone =
      if cur = [] then sapiAux rest res cur tone
      else sapiAux rest (res ++ [cur ++ tone]) [] [] := by
  have h : toneMarkTable ' ' = none := rfl
  simp [sapiAux, h]

theorem sapiAux_alpha {c : Char} (h1 : toneMarkTable c = none) (h2 : c ≠ ' ')
    (h3 : pyIsAlpha c = true)
    (rest : List Char) (res : List (List Char)) (cur tone : List Char) :
    sapiAux (c :: rest) res cur tone = sapiAux rest res (cur ++ [c]) tone := by
  simp [sapiAux, h1, h2, h3]

theorem sapiAux_digit {c : Char} (h1 : toneMarkTable c = none) (h2 : c ≠ ' ')
    (h3 : pyIsAlpha c = false) (h4 : pyIsDigit c = true)
    (rest : List Char) (res : List (List Char)) (cur tone : List Char) :
    sapiAux (c :: rest) res cur tone = sapiAux rest res cur [c] := by
  simp [sapiAux, h1, h2, h3, h4]

theorem sapiAux_skip {c : Char} (h1 : toneMarkTable c = none) (h2 : c ≠ ' ')
    (h3 : pyIsAlpha c = false) (h4 : pyIsDigit c = false)
    (rest : List Char) (res : List (List Char)) (cur tone : List Char) :
    sapiAux (c :: rest) res cur tone = sapiAux rest res cur tone := by
  simp [sapiAux, h1, h2, h3, h4]

/-! ### Character-class facts -/

theorem plain_facts : ∀ c ∈ lowerLetters,
    toneMarkTable c = none ∧ c ≠ ' ' ∧ pyIsAlpha c = true ∧ pyIsDigit c = false ∧
    pyLower c = c ∧ okChar c = true := by decide

theorem digit_facts : ∀ c ∈ digitChars,
    toneMarkTable c = none ∧ c ≠ ' ' ∧ pyIsAlpha c = false ∧ pyIsDigit c = true ∧
    pyLower c = c ∧ okChar c = true := by decide

theorem toneMark_entries : ∀ e ∈ toneMarks,
    pyLower e.1 = e.1 ∧ isPlainLetter e.2.1 = true ∧ pyIsDigit e.2.2 = true ∧
    okChar e.2.1 = true ∧ okChar e.2.2 = true ∧ e.2.1 ≠ ' ' ∧ e.2.2 ≠ ' ' := by decide

theorem toneMarkTable_some {c : Char} {bt : Char × Char}
    (h : toneMarkTable c = some bt) : ∃ e ∈ toneMarks, e.1 = c ∧ e.2 = bt := by
  unfold toneMarkTable at h
  cases hf : toneMarks.find? (fun e => e.1 == c) with
  | none => rw [hf] at h; cases h
  | some e =>
    rw [hf] at h
    cases h
    refine ⟨e, List.mem_of_find?_eq_some hf, ?_, rfl⟩
    have := List.find?_some hf
    exact eq_of_beq this

theorem pyLower_mark {c : Char} {bt : Char × Char}
    (h : toneMarkTable c = some bt) : pyLower c = c := by
  obtain ⟨e, he, h1, _⟩ := toneMarkTable_some h
  have := (toneMark_entries e he).1
  rw [← h1]; exact this

theorem mark_base_ok {c : Char} {bt : Char × Char}
    (h : toneMarkTable c = some bt) : okChar bt.1 = true := by
  obtain ⟨e, he, _, h2⟩ := toneMarkTable_some h
  have := (toneMark_entries e he).2.2.2.1
  rw [← h2]; exact this

theorem mark_tone_ok {c : Char} {bt : Char × Char}
    (h : toneMarkTable c = some bt) : okChar bt.2 = true := by
  obtain ⟨e, he, _, h2⟩ := toneMarkTable_some h
  have := (toneMark_entries e he).2.2.2.2.1
  rw [← h2]; exact this

theorem mark_tone_digit {c : Char} {bt : Char × Char}
    (h : toneMarkTable c = some bt) : pyIsDigit bt.2 = true := by
  obtain ⟨e, he, _, h2⟩ := toneMarkTable_some h
  have := (toneMark_entries e he).2.2.1
  rw [← h2]; exact this

theorem plain_letter_facts {c : Char} (h : isPlainLetter c = true) :
    toneMarkTable c = none ∧ c ≠ ' ' ∧ pyIsAlpha c = true ∧ pyIsDigit c = false ∧
    pyLower c = c ∧ okChar c = true :=
  plain_facts c (of_decide_eq_true h)

theorem tone_digit_facts {c : Char} (h : isToneDigit c = true) :
    toneMarkTable c = none ∧ c ≠ ' ' ∧ pyIsAlpha c = false ∧ pyIsDigit c = true ∧
    pyLower c = c ∧ okChar c = true := by
  have hm : c ∈ (['1', '2', '3', '4', '5'] : List Char) := of_decide_eq_true h
  have hsub : ∀ x ∈ (['1', '2', '3', '4', '5'] : List Char), x ∈ digitChars := by decide
  exact digit_facts c (hsub c hm)

theorem pyLower_space : pyLower ' ' = ' ' := rfl

/-! ### Structural lemmas about the scan -/

theorem sapiAux_accum (l : List Char) :
    ∀ (res : List (List Char)) (cur tone : List Char),
      sapiAux l res cur tone = res ++ sapiAux l [] cur tone := by
  induction l with
  | nil =>
    intro res cur tone
    by_cases hc : cur = [] <;> simp [sapiAux_nil, hc]
  | cons c rest ih =>
    intro res cur tone
    cases hm : toneMarkTable c with
    | some bt =>
      rw [sapiAux_mark hm, sapiAux_mark hm, ih]
    | none =>
      by_cases hsp : c = ' '
      · subst hsp
        rw [sapiAux_space, sapiAux_space]
        by_cases hc : cur = []
        · simp only [hc, if_pos rfl]
          exact ih res [] tone
        · simp only [hc, if_neg hc, ite_false, List.nil_append]
          rw [ih (res ++ [cur ++ tone]), ih [cur ++ tone], List.append_assoc]
      · by_cases ha : pyIsAlpha c
        · rw [sapiAux_alpha hm hsp ha, sapiAux_alpha hm hsp ha, ih]
        · by_cases hd : pyIsDigit c
          · rw [sapiAux_digit hm hsp (by simpa using ha) hd,
                sapiAux_digit hm hsp (by simpa using ha) hd, ih]
          · rw [sapiAux_skip hm hsp (by simpa using ha) (by simpa using hd),
                sapiAux_skip hm hsp (by simpa using ha) (by simpa using hd), ih]

theorem sapiAux_letters (ls : List Char) (hls : ∀ c ∈ ls, isPlainLetter c = true) :
    ∀ (l : List Char) (res : List (List Char)) (cur tone : List Char),
      sapiAux (ls ++ l) res cur tone = sapiAux l res (cur ++ ls) tone := by
  induction ls with
  | nil => intro l res cur tone; simp
  | cons c ls ih =>
    intro l res cur tone
    have hc := plain_letter_facts (hls c (List.mem_cons_self c ls))
    have hls' : ∀ x ∈ ls, isPlainLetter x = true := fun x hx => hls x (List.mem_cons_of_mem c hx)
    rw [List.cons_append, sapiAux_alpha hc.1 hc.2.1 hc.2.2.1, ih hls', List.append_assoc]
    rfl

theorem endsDigit_concat (ls : List Char) (d : Char) :
    endsDigit (ls ++ [d]) = pyIsDigit d := by
  simp [endsDigit, List.getLast?_concat]

theorem endsDigit_letters {ls : List Char} (h : ∀ c ∈ ls, isPlainLetter c = true) :
    endsDigit ls = false := by
  cases hl : ls.getLast? with
  | none => simp [endsDigit, hl]
  | some c =>
    have hc : c ∈ ls := List.mem_of_getLast?_eq_some hl
    have := (plain_letter_facts (h c hc)).2.2.2.1
    simp [endsDigit, hl, this]

/-- A well-formed syllable of the input: nonempty plain letters, optionally
followed by one decimal-digit character. -/
def goodTok (t : List Char) : Prop :=
  ∃ (ls : List Char) (od : Option Char), ls ≠ [] ∧ (∀ c ∈ ls, isPlainLetter c = true) ∧
    (∀ d ∈ od, pyIsDigit d = true) ∧ t = ls ++ od.toList

/-- `closeSyl` at the character-list level. -/
def closeTok (t : List Char) : List Char :=
  if endsDigit t then t else t ++ ['5']

/-- `closeLast` at the character-list level. -/
def closeLastTok : List (List Char) → List (List Char)
  | [] => []
  | [t] => [closeTok t]
  | t :: t2 :: ts => t :: closeLastTok (t2 :: ts)

theorem sapiAux_tokens : ∀ ts : List (List Char), (∀ t ∈ ts, goodTok t) → ts ≠ [] →
    sapiAux (joinSpace ts) [] [] [] = closeLastTok ts := by
  intro ts
  induction ts with
  | nil => intro _ h; exact absurd rfl h
  | cons t ts ih =>
    intro hgood _
    obtain ⟨ls, od, hne, hls, hod, ht⟩ := hgood t (List.mem_cons_self t ts)
    cases ts with
    | nil =>
      show sapiAux (joinSpace [t]) [] [] [] = [closeTok t]
      cases od with
      | none =>
        have ht' : t = ls := by simpa using ht
        subst ht'
        have hstep := sapiAux_letters t hls [] [] [] []
        simp only [List.append_nil, List.nil_append] at hstep
        rw [show joinSpace [t] = t from rfl, hstep, sapiAux_nil]
        simp [hne, closeTok, endsDigit_letters hls]
      | some d =>
        have hd : pyIsDigit d = true := hod d rfl
        have hfacts := digit_facts d (of_decide_eq_true hd)
        have ht' : t = ls ++ [d] := by simpa using ht
        subst ht'
        rw [show joinSpace [ls ++ [d]] = ls ++ [d] from rfl,
            sapiAux_letters ls hls,
            sapiAux_digit hfacts.1 hfacts.2.1 hfacts.2.2.1 hfacts.2.2.2.1, sapiAux_nil]
        simp [hne, closeTok, endsDigit_concat, hd]
    | cons t2 ts2 =>
      show sapiAux (t ++ ' ' :: joinSpace (t2 :: ts2)) [] [] [] = t :: closeLastTok (t2 :: ts2)
      have hrest : sapiAux (joinSpace (t2 :: ts2)) [] [] [] = closeLastTok (t2 :: ts2) :=
        ih (fun x hx => hgood x (List.mem_cons_of_mem t hx)) (by simp)
      cases od with
      | none =>
        have ht' : t = ls := by simpa using ht
        subst ht'
        have hstep := sapiAux_letters t hls (' ' :: joinSpace (t2 :: ts2)) [] [] []
        simp only [List.nil_append] at hstep
        rw [hstep, sapiAux_space]
        simp only [hne, if_neg hne, ite_false, List.append_nil, List.nil_append]
        rw [sapiAux_accum, hrest]
        rfl
      | some d =>
        have hd : pyIsDigit d = true := hod d rfl
        have hfacts := digit_facts d (of_decide_eq_true hd)
        have ht' : t = ls ++ [d] := by simpa using ht
        subst ht'
        have hstep := sapiAux_letters ls hls (d :: ' ' :: joinSpace (t2 :: ts2)) [] [] []
        simp only [List.nil_append] at hstep
        have hassoc : (ls ++ [d]) ++ ' ' :: joinSpace (t2 :: ts2) =
            ls ++ (d :: ' ' :: joinSpace (t2 :: ts2)) := by simp
        rw [hassoc, hstep,
            sapiAux_digit hfacts.1 hfacts.2.1 hfacts.2.2.1 hfacts.2.2.2.1, sapiAux_space]
        simp only [hne, if_neg hne, ite_false, List.nil_append]
        rw [sapiAux_accum, hrest]
        rfl

/-! ### Lowercasing and membership lemmas -/

theorem map_pyLower_id : ∀ {l : List Char}, (∀ c ∈ l, pyLower c = c) → l.map pyLower = l := by
  intro l h
  induction l with
  | nil => rfl
  | cons c l ih =>
    simp only [List.map_cons]
    rw [h c (List.mem_cons_self c l), ih (fun x hx => h x (List.mem_cons_of_mem c hx))]

theorem mem_joinSpace : ∀ (ts : List (List Char)) (c : Char),
    c ∈ joinSpace ts → c = ' ' ∨ ∃ t ∈ ts, c ∈ t := by
  intro ts
  induction ts with
  | nil => intro c h; simp [joinSpace] at h
  | cons t ts ih =>
    cases ts with
    | nil =>
      intro c h
      right
      exact ⟨t, List.mem_cons_self t [], by simpa [joinSpace] using h⟩
    | cons t2 ts2 =>
      intro c h
      rw [show joinSpace (t :: t2 :: ts2) = t ++ ' ' :: joinSpace (t2 :: ts2) from rfl] at h
      rcases List.mem_append.1 h with h1 | h1
      · right; exact ⟨t, List.mem_cons_self t _, h1⟩
      · rcases List.mem_cons.1 h1 with h2 | h2
        · left; exact h2
        · rcases ih c h2 with h3 | ⟨t', ht', hc⟩
          · left; exact h3
          · right; exact ⟨t', List.mem_cons_of_mem t ht', hc⟩

/-! ### Output-character invariant -/

theorem sapiAux_ok : ∀ (l : List Char) (res : List (List Char)) (cur tone : List Char),
    (∀ t ∈ res, t ≠ [] ∧ ∀ c ∈ t, okChar c = true) →
    (∀ c ∈ cur, okChar c = true) → (∀ c ∈ tone, okChar c = true) →
    ∀ t ∈ sapiAux l res cur tone, t ≠ [] ∧ ∀ c ∈ t, okChar c = true := by
  intro l
  induction l with
  | nil =>
    intro res cur tone hres hcur htone t ht
    rw [sapiAux_nil] at ht
    by_cases hc : cur = []
    · rw [if_pos hc] at ht; exact hres t ht
    · rw [if_neg hc] at ht
      rcases List.mem_append.1 ht with h1 | h1
      · exact hres t h1
      · have hteq : t = cur ++ (if tone = [] then ['5'] else tone) := by simpa using h1
        subst hteq
        refine ⟨by simp [hc], ?_⟩
        intro c hcm
        rcases List.mem_append.1 hcm with h2 | h2
        · exact hcur c h2
        · by_cases htn : tone = []
          · rw [if_pos htn] at h2
            have : c = '5' := by simpa using h2
            subst this; decide
          · rw [if_neg htn] at h2; exact htone c h2
  | cons c0 rest ih =>
    intro res cur tone hres hcur htone t ht
    cases hm : toneMarkTable c0 with
    | some bt =>
      rw [sapiAux_mark hm] at ht
      refine ih res (cur ++ [bt.1]) [bt.2] hres ?_ ?_ t ht
      · intro c hcm
        rcases List.mem_append.1 hcm with h | h
        · exact hcur c h
        · have : c = bt.1 := by simpa using h
          subst this; exact mark_base_ok hm
      · intro c hcm
        have : c = bt.2 := by simpa using hcm
        subst this; exact mark_tone_ok hm
    | none =>
      by_cases hsp : c0 = ' '
      · subst hsp
        rw [sapiAux_space] at ht
        by_cases hc : cur = []
        · rw [if_pos hc] at ht; exact ih res cur tone hres hcur htone t ht
        · rw [if_neg hc] at ht
          refine ih (res ++ [cur ++ tone]) [] [] ?_ (by simp) (by simp) t ht
          intro x hx
          rcases List.mem_append.1 hx with h | h
          · exact hres x h
          · have : x = cur ++ tone := by simpa using h
            subst this
            refine ⟨by simp [hc], ?_⟩
            intro c hcm
            rcases List.mem_append.1 hcm with h2 | h2
            · exact hcur c h2
            · exact htone c h2
      · by_cases ha : pyIsAlpha c0
        · rw [sapiAux_alpha hm hsp ha] at ht
          refine ih res (cur ++ [c0]) tone hres ?_ htone t ht
          intro c hcm
          rcases List.mem_append.1 hcm with h | h
          · exact hcur c h
          · have : c = c0 := by simpa using h
            subst this; simp [okChar, ha]
        · by_cases hd : pyIsDigit c0
          · rw [sapiAux_digit hm hsp (by simpa using ha) hd] at ht
            refine ih res cur [c0] hres hcur ?_ t ht
            intro c hcm
            have : c = c0 := by simpa using hcm
            subst this; simp [okChar, hd]
          · rw [sapiAux_skip hm hsp (by simpa using ha) (by simpa using hd)] at ht
            exact ih res cur tone hres hcur htone t ht

/-! ### Shape of the space-joined output -/

theorem joinSpace_ne_nil : ∀ ts : List (List Char), ts ≠ [] → (∀ t ∈ ts, t ≠ []) →
    joinSpace ts ≠ [] := by
  intro ts hne hts
  cases ts with
  | nil => exact absurd rfl hne
  | cons t ts =>
    cases ts with
    | nil => exact hts t (List.mem_cons_self t [])
    | cons t2 ts2 => simp [joinSpace]

theorem head?_append_of_ne_nil {t l : List Char} (h : t ≠ []) :
    (t ++ l).head? = t.head? := by
  cases t with
  | nil => exact absurd rfl h
  | cons a t' => rfl

theorem joinSpace_head : ∀ ts : List (List Char),
    (∀ t ∈ ts, t ≠ [] ∧ ∀ c ∈ t, c ≠ ' ') → (joinSpace ts).head? ≠ some ' ' := by
  intro ts hts
  cases ts with
  | nil => simp [joinSpace]
  | cons t ts =>
    obtain ⟨hne, hch⟩ := hts t (List.mem_cons_self t ts)
    cases t with
    | nil => exact absurd rfl hne
    | cons a t' =>
      have ha : a ≠ ' ' := hch a (List.mem_cons_self a t')
      cases ts with
      | nil =>
        show (a :: t' : List Char).head? ≠ some ' '
        simpa using ha
      | cons t2 ts2 =>
        show ((a :: t') ++ ' ' :: joinSpace (t2 :: ts2)).head? ≠ some ' '
        simpa using ha

theorem joinSpace_getLast : ∀ ts : List (List Char),
    (∀ t ∈ ts, t ≠ [] ∧ ∀ c ∈ t, c ≠ ' ') → (joinSpace ts).getLast? ≠ some ' ' := by
  intro ts
  induction ts with
  | nil => intro _; simp [joinSpace]
  | cons t ts ih =>
    intro hts
    obtain ⟨hne, hch⟩ := hts t (List.mem_cons_self t ts)
    cases ts with
    | nil =>
      show (joinSpace [t]).getLast? ≠ some ' '
      cases hl : t.getLast? with
      | none => simp [joinSpace, hl]
      | some c =>
        have : c ≠ ' ' := hch c (List.mem_of_getLast?_eq_some hl)
        simpa [joinSpace, hl] using this
    | cons t2 ts2 =>
      have hrest := ih (fun x hx => hts x (List.mem_cons_of_mem t hx))
      have hjne : joinSpace (t2 :: ts2) ≠ [] :=
        joinSpace_ne_nil (t2 :: ts2) (by simp)
          (fun x hx => (hts x (List.mem_cons_of_mem t hx)).1)
      show (t ++ ' ' :: joinSpace (t2 :: ts2)).getLast? ≠ some ' '
      obtain ⟨b, l, hk⟩ := List.exists_cons_of_ne_nil hjne
      rw [hk] at hrest
      rw [hk, List.getLast?_append, List.getLast?_cons_cons]
      cases hbl : (b :: l).getLast? with
      | none => simp at hbl
      | some c =>
        rw [hbl] at hrest
        simpa [hbl] using hrest

theorem hasTwoSpaces_cons {a : Char} (l : List Char) (h : a ≠ ' ') :
    hasTwoSpaces (a :: l) = hasTwoSpaces l := by
  cases l with
  | nil => rfl
  | cons b l' =>
    show ((a == ' ' && b == ' ') || hasTwoSpaces (b :: l')) = hasTwoSpaces (b :: l')
    have : (a == ' ') = false := by simpa using h
    simp [this]

theorem hasTwoSpaces_no_space : ∀ {l : List Char}, (∀ c ∈ l, c ≠ ' ') →
    hasTwoSpaces l = false := by
  intro l h
  induction l with
  | nil => rfl
  | cons a l' ih =>
    rw [hasTwoSpaces_cons l' (h a (List.mem_cons_self a l'))]
    exact ih (fun x hx => h x (List.mem_cons_of_mem a hx))

theorem hasTwoSpaces_space_cons {l : List Char} (h1 : l.head? ≠ some ' ')
    (h2 : hasTwoSpaces l = false) : hasTwoSpaces (' ' :: l) = false := by
  cases l with
  | nil => rfl
  | cons b l' =>
    show ((' ' == ' ' && b == ' ') || hasTwoSpaces (b :: l')) = false
    have hb : b ≠ ' ' := by simpa using h1
    have : (b == ' ') = false := by simpa using hb
    simp [this, h2]

theorem hasTwoSpaces_token : ∀ (t : List Char) {l : List Char},
    (∀ c ∈ t, c ≠ ' ') → l.head? ≠ some ' ' → hasTwoSpaces l = false →
    hasTwoSpaces (t ++ ' ' :: l) = false := by
  intro t
  induction t with
  | nil =>
    intro l _ h1 h2
    exact hasTwoSpaces_space_cons h1 h2
  | cons a t' ih =>
    intro l ht h1 h2
    rw [List.cons_append, hasTwoSpaces_cons _ (ht a (List.mem_cons_self a t'))]
    exact ih (fun x hx => ht x (List.mem_cons_of_mem a hx)) h1 h2

theorem hasTwoSpaces_joinSpace : ∀ ts : List (List Char),
    (∀ t ∈ ts, t ≠ [] ∧ ∀ c ∈ t, c ≠ ' ') → hasTwoSpaces (joinSpace ts) = false := by
  intro ts
  induction ts with
  | nil => intro _; rfl
  | cons t ts ih =>
    intro hts
    obtain ⟨hne, hch⟩ := hts t (List.mem_cons_self t ts)
    cases ts with
    | nil => exact hasTwoSpaces_no_space hch
    | cons t2 ts2 =>
      have hrest : ∀ x ∈ t2 :: ts2, x ≠ [] ∧ ∀ c ∈ x, c ≠ ' ' :=
        fun x hx => hts x (List.mem_cons_of_mem t hx)
      show hasTwoSpaces (t ++ ' ' :: joinSpace (t2 :: ts2)) = false
      exact hasTwoSpaces_token t hch (joinSpace_head (t2 :: ts2) hrest) (ih hrest)

/-! ### String-level utilities -/

theorem mk_eq_empty {l : List Char} : (String.mk l = "") ↔ l = [] := by
  constructor
  · intro h
    have hd : (String.mk l).data = ("" : String).data := by rw [h]
    simpa using hd
  · intro h; subst h; rfl

theorem spaceJoin_data (ts : List String) :
    (spaceJoin ts).data = joinSpace (ts.map String.data) := rfl

/-! ### Ignored characters are skipped -/

theorem sapiAux_filter : ∀ (l : List Char) (res : List (List Char)) (cur tone : List Char),
    sapiAux (l.filter (fun c => !(ignoredLow c))) res cur tone = sapiAux l res cur tone := by
  intro l
  induction l with
  | nil => intro res cur tone; rfl
  | cons c rest ih =>
    intro res cur tone
    by_cases hi : ignoredLow c = true
    · have hfilter : (c :: rest).filter (fun x => !(ignoredLow x)) =
          rest.filter (fun x => !(ignoredLow x)) := by
        simp [List.filter_cons, hi]
      have hi' := hi
      simp only [ignoredLow, Bool.and_eq_true, Bool.not_eq_true'] at hi'
      obtain ⟨⟨⟨h1, h2⟩, h3⟩, h4⟩ := hi'
      have h1' : toneMarkTable c = none := Option.isNone_iff_eq_none.1 h1
      have h2' : c ≠ ' ' := beq_eq_false_iff_ne.1 h2
      rw [hfilter, ih, sapiAux_skip h1' h2' h3 h4]
    · have hif : ignoredLow c = false := by simpa using hi
      have hfilter : (c :: rest).filter (fun x => !(ignoredLow x)) =
          c :: rest.filter (fun x => !(ignoredLow x)) := by
        simp [List.filter_cons, hif]
      rw [hfilter]
      cases hm : toneMarkTable c with
      | some bt => rw [sapiAux_mark hm, sapiAux_mark hm, ih]
      | none =>
        by_cases hsp : c = ' '
        · subst hsp
          rw [sapiAux_space, sapiAux_space]
          by_cases hc : cur = []
          · rw [if_pos hc, if_pos hc, ih]
          · rw [if_neg hc, if_neg hc, ih]
        · by_cases ha : pyIsAlpha c
          · rw [sapiAux_alpha hm hsp ha, sapiAux_alpha hm hsp ha, ih]
          · have ha' : pyIsAlpha c = false := by simpa using ha
            by_cases hd : pyIsDigit c
            · rw [sapiAux_digit hm hsp ha' hd, sapiAux_digit hm hsp ha' hd, ih]
            · exfalso
              apply hi
              have hd' : pyIsDigit c = false := by simpa using hd
              simp [ignoredLow, hm, hsp, ha', hd']

/-! ### Bridges between the string level and the character-list level -/

theorem closeSyl_data (t : String) : (closeSyl t).data = closeTok t.data := by
  unfold closeSyl closeTok
  by_cases h : endsDigit t.data = true
  · simp [h]
  · have h' : endsDigit t.data = false := by simpa using h
    simp [h', String.data_append]

theorem closeLast_data : ∀ ts : List String,
    (closeLast ts).map String.data = closeLastTok (ts.map String.data) := by
  intro ts
  induction ts with
  | nil => rfl
  | cons t ts ih =>
    cases ts with
    | nil => simp [closeLast, closeLastTok, closeSyl_data]
    | cons t2 ts2 =>
      simp only [closeLast, closeLastTok, List.map_cons]
      rw [show ((t2 :: ts2).map String.data) = t2.data :: ts2.map String.data from rfl] at ih
      exact congrArg (t.data :: ·) ih

theorem closeLastTok_id : ∀ ts : List (List Char), (∀ t ∈ ts, endsDigit t = true) →
    closeLastTok ts = ts := by
  intro ts
  induction ts with
  | nil => intro _; rfl
  | cons t ts ih =>
    intro h
    cases ts with
    | nil =>
      have := h t (List.mem_cons_self t [])
      simp [closeLastTok, closeTok, this]
    | cons t2 ts2 =>
      simp only [closeLastTok]
      rw [ih (fun x hx => h x (List.mem_cons_of_mem t hx))]

/-- Tone-number-form inputs are fixed points of the normalizer. -/
theorem tnf_fixed {x : String} (h : toneNumberForm x) : pinyin_to_sapi x = x := by
  obtain ⟨ts, hne, htok, hx⟩ := h
  subst hx
  have hgood : ∀ t ∈ ts.map String.data, goodTok t := by
    intro t ht
    obtain ⟨s, hs, rfl⟩ := List.mem_map.1 ht
    obtain ⟨ls, d, hls_ne, hls, hd, hdata⟩ := htok s hs
    refine ⟨ls, some d, hls_ne, hls, ?_, by simpa using hdata⟩
    intro e he
    have hde : d = e := by simpa using he
    subst hde
    exact (tone_digit_facts hd).2.2.2.1
  have hlower : ∀ c ∈ joinSpace (ts.map String.data), pyLower c = c := by
    intro c hc
    rcases mem_joinSpace _ c hc with rfl | ⟨t, ht, hct⟩
    · exact pyLower_space
    · obtain ⟨s, hs, rfl⟩ := List.mem_map.1 ht
      obtain ⟨ls, d, _, hls, hd, hdata⟩ := htok s hs
      rw [hdata] at hct
      rcases List.mem_append.1 hct with h1 | h1
      · exact (plain_letter_facts (hls c h1)).2.2.2.2.1
      · have : c = d := by simpa using h1
        subst this
        exact (tone_digit_facts hd).2.2.2.2.1
  have hmapne : ts.map String.data ≠ [] := by simpa using hne
  have htne : ∀ t ∈ ts.map String.data, t ≠ [] := by
    intro t ht
    obtain ⟨s, hs, rfl⟩ := List.mem_map.1 ht
    obtain ⟨ls, d, _, _, _, hdata⟩ := htok s hs
    rw [hdata]; simp
  have hjne : joinSpace (ts.map String.data) ≠ [] := joinSpace_ne_nil _ hmapne htne
  have hxne : spaceJoin ts ≠ "" := by
    unfold spaceJoin; rw [Ne, mk_eq_empty]; exact hjne
  have hends : ∀ t ∈ ts.map String.data, endsDigit t = true := by
    intro t ht
    obtain ⟨s, hs, rfl⟩ := List.mem_map.1 ht
    obtain ⟨ls, d, _, _, hd, hdata⟩ := htok s hs
    rw [hdata, endsDigit_concat]
    exact (tone_digit_facts hd).2.2.2.1
  unfold pinyin_to_sapi
  rw [if_neg hxne, spaceJoin_data, map_pyLower_id hlower,
      sapiAux_tokens _ hgood hmapne, closeLastTok_id _ hends]
  rfl

/-! ### Claim theorems -/

set_option maxRecDepth 20000 in
/-- C1 counterexample: the claim says that for an utterance longer than two
characters a present hint is ignored (no phoneme annotation, usedPhoneme
false).  But for the three-character utterance 谢谢你 with hint "xiè" the code
wraps the text in the phoneme element and reports usedPhoneme = true. -/
theorem C1_counterexample :
    ("谢谢你" : String).length = 3 ∧
    used_phoneme (some "xiè") = true ∧
    build_ssml "谢谢你" "zh-CN-XiaoxiaoNeural" (some "xiè") =
      ssmlHead ++ "zh-CN-XiaoxiaoNeural" ++ ssmlMid ++
        (phonemeOpen ++ "xie4" ++ phonemeMid ++ "谢谢你" ++ phonemeClose) ++ ssmlTail ∧
    build_ssml "谢谢你" "zh-CN-XiaoxiaoNeural" (some "xiè") ≠
      ssmlHead ++ "zh-CN-XiaoxiaoNeural" ++ ssmlMid ++ "谢谢你" ++ ssmlTail := by
  exact ⟨by decide, by decide, by decide, by decide⟩

/-- C1 (amended): the request builder never looks at the utterance's length:
whenever the hint is present and nonempty it applies the phoneme annotation
and reports usedPhoneme = true, for every text. -/
theorem C1_hint_applied_any_length :
    ∀ (text vid p : String), p ≠ "" →
      build_ssml text vid (some p) =
        ssmlHead ++ vid ++ ssmlMid ++
          (phonemeOpen ++ pinyin_to_sapi p ++ phonemeMid ++ text ++ phonemeClose) ++ ssmlTail ∧
      used_phoneme (some p) = true := by
  intro text vid p hp
  constructor
  · simp [build_ssml, hp]
  · simp [used_phoneme, hp, bne_iff_ne]

/-- C1 witness: the amended theorem at the three-character utterance. -/
theorem C1_witness :
    ("xiè" : String) ≠ "" ∧
    (build_ssml "谢谢你" "zh-CN-XiaoxiaoNeural" (some "xiè") =
      ssmlHead ++ "zh-CN-XiaoxiaoNeural" ++ ssmlMid ++
        (phonemeOpen ++ pinyin_to_sapi "xiè" ++ phonemeMid ++ "谢谢你" ++ phonemeClose) ++
        ssmlTail ∧
     used_phoneme (some "xiè") = true) :=
  ⟨by decide, C1_hint_applied_any_length "谢谢你" "zh-CN-XiaoxiaoNeural" "xiè" (by decide)⟩

/-- C2 counterexample: the claim says every emitted syllable ends in exactly
one tone digit, with default 5 when a syllable is closed by a space or by end
of input with no tone set.  But `pinyin_to_sapi "ma ma"` yields "ma ma5": the
first syllable, closed by a space with no tone, is emitted with no digit. -/
theorem C2_counterexample :
    pinyin_to_sapi "ma ma" = "ma ma5" ∧
    pinyin_to_sapi "ma ma" ≠ "ma5 ma5" ∧
    pinyin_to_sapi "ma ma" = spaceJoin ["ma", "ma5"] ∧
    endsDigit ("ma" : String).data = false := by
  exact ⟨by decide, by decide, by decide, by decide⟩

/-- C2 (amended): only a syllable closed by end of input receives the default
neutral tone digit 5 when no tone was set; a syllable closed by a space with
no tone is emitted bare.  For single-space-joined plain-letter syllables the
output is the same join with 5 appended to the last syllable only (so
"ma" normalizes to "ma5" but "ma ma" to "ma ma5"). -/
theorem C2_default_tone_last_syllable :
    ∀ ts : List String, ts ≠ [] →
      (∀ t ∈ ts, t.data ≠ [] ∧ ∀ c ∈ t.data, isPlainLetter c = true) →
      pinyin_to_sapi (spaceJoin ts) = spaceJoin (closeLast ts) := by
  intro ts hne hts
  have hgood : ∀ t ∈ ts.map String.data, goodTok t := by
    intro t ht
    obtain ⟨s, hs, rfl⟩ := List.mem_map.1 ht
    exact ⟨s.data, none, (hts s hs).1, (hts s hs).2, by simp, by simp⟩
  have hmapne : ts.map String.data ≠ [] := by simpa using hne
  have htne : ∀ t ∈ ts.map String.data, t ≠ [] := by
    intro t ht
    obtain ⟨s, hs, rfl⟩ := List.mem_map.1 ht
    exact (hts s hs).1
  have hjne : joinSpace (ts.map String.data) ≠ [] := joinSpace_ne_nil _ hmapne htne
  have hxne : spaceJoin ts ≠ "" := by
    unfold spaceJoin; rw [Ne, mk_eq_empty]; exact hjne
  have hlow : ∀ c ∈ joinSpace (ts.map String.data), pyLower c = c := by
    intro c hc
    rcases mem_joinSpace _ c hc with rfl | ⟨t, ht, hct⟩
    · exact pyLower_space
    · obtain ⟨s, hs, rfl⟩ := List.mem_map.1 ht
      exact (plain_letter_facts ((hts s hs).2 c hct)).2.2.2.2.1
  unfold pinyin_to_sapi
  rw [if_neg hxne, spaceJoin_data, map_pyLower_id hlow, sapiAux_tokens _ hgood hmapne]
  show String.mk (joinSpace (closeLastTok (ts.map String.data))) = spaceJoin (closeLast ts)
  unfold spaceJoin
  rw [closeLast_data]

/-- C2 witness: the amended theorem at ["ma", "ma"], evaluating the join. -/
theorem C2_witness :
    (["ma", "ma"] : List String) ≠ [] ∧
    pinyin_to_sapi (spaceJoin ["ma", "ma"]) = spaceJoin (closeLast ["ma", "ma"]) ∧
    spaceJoin (["ma", "ma"] : List String) = "ma ma" ∧
    spaceJoin (closeLast ["ma", "ma"]) = "ma ma5" := by
  refine ⟨by decide, C2_default_tone_last_syllable ["ma", "ma"] (by decide) (by decide),
    by decide, by decide⟩

/-- C3: a single syllable of plain letters around one diacritic-marked vowel
with tone digit T in 1–4 normalizes to the base letters immediately followed
by T (ü is written v), and the standalone neutral ü normalizes to "v5". -/
theorem C3_tone_marked_syllable :
    (∀ (pre post : List Char) (m b t : Char),
      (∀ c ∈ pre, isPlainLetter c = true) → (∀ c ∈ post, isPlainLetter c = true) →
      toneMarkTable m = some (b, t) → t ∈ (['1', '2', '3', '4'] : List Char) →
      pinyin_to_sapi (String.mk (pre ++ m :: post)) = String.mk (pre ++ b :: (post ++ [t]))) ∧
    pinyin_to_sapi "ü" = "v5" := by
  constructor
  · intro pre post m b t hpre hpost hm _
    have hne : (pre ++ m :: post : List Char) ≠ [] := by simp
    have hsne : String.mk (pre ++ m :: post) ≠ "" := by rw [Ne, mk_eq_empty]; exact hne
    unfold pinyin_to_sapi
    rw [if_neg hsne]
    have hlow : ∀ c ∈ pre ++ m :: post, pyLower c = c := by
      intro c hc
      rcases List.mem_append.1 hc with h | h
      · exact (plain_letter_facts (hpre c h)).2.2.2.2.1
      · rcases List.mem_cons.1 h with rfl | h2
        · exact pyLower_mark hm
        · exact (plain_letter_facts (hpost c h2)).2.2.2.2.1
    have hdata : (String.mk (pre ++ m :: post)).data = pre ++ m :: post := rfl
    rw [hdata, map_pyLower_id hlow, sapiAux_letters pre hpre, sapiAux_mark hm]
    have hstep := sapiAux_letters post hpost [] [] (([] ++ pre) ++ [(b, t).1]) [(b, t).2]
    rw [List.append_nil] at hstep
    rw [hstep, sapiAux_nil]
    have hcne : ((([] ++ pre) ++ [(b, t).1]) ++ post : List Char) ≠ [] := by simp
    rw [if_neg hcne]
    have htne : ([(b, t).2] : List Char) ≠ [] := by simp
    rw [if_neg htne]
    simp [joinSpace, List.append_assoc]
  · decide

/-- C3 witness: the universal part at "xiè" (table entry è ↦ (e, 4)). -/
theorem C3_witness :
    toneMarkTable 'è' = some ('e', '4') ∧ pinyin_to_sapi "xiè" = "xie4" := by
  refine ⟨rfl, ?_⟩
  have h := C3_tone_marked_syllable.1 ['x', 'i'] [] 'è' 'e' '4'
    (by decide) (by decide) rfl (by decide)
  have e1 : String.mk (['x', 'i'] ++ 'è' :: []) = "xiè" := rfl
  have e2 : String.mk (['x', 'i'] ++ 'e' :: ([] ++ ['4'])) = "xie4" := rfl
  rw [e1, e2] at h
  exact h

/-- C4 counterexample: the claim says digits outside 1–5 are ignored, but the
code's digit branch accepts any decimal digit: "ma0" keeps the 0 as tone
("ma0"), whereas deleting the 0 would give "ma5". -/
theorem C4_counterexample :
    pinyin_to_sapi "ma0" = "ma0" ∧ pinyin_to_sapi "ma" = "ma5" ∧
    pinyin_to_sapi "ma0" ≠ pinyin_to_sapi "ma" ∧ ignoredChar '0' = false := by
  exact ⟨by decide, by decide, by decide, by decide⟩

/-- C4 (amended): a character is silently ignored exactly when, after
lowercasing, it is not a tone-marked vowel, not a space, not alphabetic and
not any decimal digit (0–9, not just 1–5): the output equals the output on the
input with all such characters deleted. -/
theorem C4_unrecognized_ignored :
    ∀ s : String,
      pinyin_to_sapi s =
        pinyin_to_sapi (String.mk (s.data.filter (fun c => !(ignoredChar c)))) := by
  intro s
  have hcomm : (s.data.map pyLower).filter (fun c => !(ignoredLow c)) =
      (s.data.filter (fun c => !(ignoredChar c))).map pyLower := by
    rw [List.filter_map]
    rfl
  have key : sapiAux ((s.data.filter (fun c => !(ignoredChar c))).map pyLower) [] [] [] =
      sapiAux (s.data.map pyLower) [] [] [] := by
    rw [← hcomm]
    exact sapiAux_filter _ [] [] []
  by_cases hs : s = ""
  · subst hs; rfl
  · by_cases hf : s.data.filter (fun c => !(ignoredChar c)) = []
    · have hrhs : pinyin_to_sapi (String.mk (s.data.filter (fun c => !(ignoredChar c)))) = "" := by
        rw [hf]; rfl
      rw [hrhs]
      unfold pinyin_to_sapi
      rw [if_neg hs, ← key, hf]
      rfl
    · have hne : String.mk (s.data.filter (fun c => !(ignoredChar c))) ≠ "" := by
        rw [Ne, mk_eq_empty]; exact hf
      unfold pinyin_to_sapi
      rw [if_neg hs, if_neg hne]
      have hdata : (String.mk (s.data.filter (fun c => !(ignoredChar c)))).data =
          s.data.filter (fun c => !(ignoredChar c)) := rfl
      rw [hdata, key]

set_option maxRecDepth 20000 in
/-- C5: in the markup payload, a present (nonempty) hint wraps the utterance
in a phoneme element whose alphabet attribute is "sapi" and whose ph value is
the normalizer's output on the hint; with no hint the utterance appears
unwrapped inside the voice element; for 谢 with hint "xiè" the ph value is
"xie4". -/
theorem C5_markup_form :
    (∀ (text vid p : String), p ≠ "" →
      build_ssml text vid (some p) =
        ssmlHead ++ vid ++ ssmlMid ++
          (phonemeOpen ++ pinyin_to_sapi p ++ phonemeMid ++ text ++ phonemeClose) ++ ssmlTail) ∧
    (∀ text vid : String,
      build_ssml text vid none = ssmlHead ++ vid ++ ssmlMid ++ text ++ ssmlTail) ∧
    pinyin_to_sapi "xiè" = "xie4" ∧
    build_ssml "谢" "zh-CN-XiaoxiaoNeural" (some "xiè") =
      ssmlHead ++ "zh-CN-XiaoxiaoNeural" ++ ssmlMid ++
        (phonemeOpen ++ "xie4" ++ phonemeMid ++ "谢" ++ phonemeClose) ++ ssmlTail := by
  refine ⟨?_, ?_, by decide, by decide⟩
  · intro text vid p hp
    simp [build_ssml, hp]
  · intro text vid
    rfl

/-- C5 witness: the hinted branch of the markup form at 谢 / "xiè". -/
theorem C5_witness :
    ("xiè" : String) ≠ "" ∧
    build_ssml "谢" "zh-CN-XiaoxiaoNeural" (some "xiè") =
      ssmlHead ++ "zh-CN-XiaoxiaoNeural" ++ ssmlMid ++
        (phonemeOpen ++ pinyin_to_sapi "xiè" ++ phonemeMid ++ "谢" ++ phonemeClose) ++
        ssmlTail :=
  ⟨by decide, C5_markup_form.1 "谢" "zh-CN-XiaoxiaoNeural" "xiè" (by decide)⟩

/-- C6: normalization is idempotent on tone-number-form input (such inputs are
fixed points of the normalizer). -/
theorem C6_idempotent_tone_number :
    ∀ x : String, toneNumberForm x →
      pinyin_to_sapi (pinyin_to_sapi x) = pinyin_to_sapi x := by
  intro x h
  rw [tnf_fixed h]
  exact tnf_fixed h

/-- C6 witness: "xie4" is in tone-number form and idempotent. -/
theorem C6_witness :
    toneNumberForm "xie4" ∧
    pinyin_to_sapi (pinyin_to_sapi "xie4") = pinyin_to_sapi "xie4" := by
  have htnf : toneNumberForm "xie4" := by
    refine ⟨["xie4"], by simp, ?_, by decide⟩
    intro t ht
    have heq : t = "xie4" := by simpa using ht
    subst heq
    exact ⟨['x', 'i', 'e'], '4', by decide, by decide, by decide, rfl⟩
  exact ⟨htnf, C6_idempotent_tone_number "xie4" htnf⟩

theorem empty_of_data_nil {s : String} (h : s.data = []) : s = "" := by
  have h2 : String.mk s.data = "" := mk_eq_empty.2 h
  exact h2

/-- C7: the normalizer is case-insensitive: two inputs with the same
lowercasing normalize identically; in particular "XIÈ" and "xiè". -/
theorem C7_case_insensitive :
    (∀ s t : String, s.data.map pyLower = t.data.map pyLower →
      pinyin_to_sapi s = pinyin_to_sapi t) ∧
    pinyin_to_sapi "XIÈ" = pinyin_to_sapi "xiè" ∧
    pinyin_to_sapi "XIÈ" = "xie4" := by
  refine ⟨?_, by decide, by decide⟩
  intro s t h
  by_cases hs : s = ""
  · subst hs
    have h0 : t.data.map pyLower = [] := by simpa using h.symm
    have ht : t = "" := empty_of_data_nil (by simpa using h0)
    subst ht; rfl
  · have ht : t ≠ "" := by
      intro h0
      subst h0
      have h1 : s.data.map pyLower = [] := by simpa using h
      exact hs (empty_of_data_nil (by simpa using h1))
    unfold pinyin_to_sapi
    rw [if_neg hs, if_neg ht, h]

/-- C7 witness: the congruence applied to "XIÈ" and "xiè". -/
theorem C7_witness :
    ("XIÈ" : String).data.map pyLower = ("xiè" : String).data.map pyLower ∧
    pinyin_to_sapi "XIÈ" = pinyin_to_sapi "xiè" :=
  ⟨by decide, C7_case_insensitive.1 "XIÈ" "xiè" (by decide)⟩

/-- C8: the core never fails on degenerate input: the empty hint normalizes to
the empty string, and the builder with an absent or empty hint produces the
plain (unannotated) document and usedPhoneme = false for every text. -/
theorem C8_no_failure_degenerate :
    pinyin_to_sapi "" = "" ∧
    (∀ text vid : String,
      build_ssml text vid none = ssmlHead ++ vid ++ ssmlMid ++ text ++ ssmlTail) ∧
    (∀ text vid : String,
      build_ssml text vid (some "") = ssmlHead ++ vid ++ ssmlMid ++ text ++ ssmlTail) ∧
    used_phoneme none = false ∧ used_phoneme (some "") = false := by
  refine ⟨rfl, fun text vid => rfl, fun text vid => ?_, rfl, rfl⟩
  simp [build_ssml]

theorem sapi_chars_ok : ∀ (p : String) (c : Char),
    c ∈ (pinyin_to_sapi p).data → c = ' ' ∨ okChar c = true := by
  intro p c hc
  by_cases hp : p = ""
  · subst hp
    exact absurd hc (List.not_mem_nil c)
  · unfold pinyin_to_sapi at hc
    rw [if_neg hp] at hc
    have hc' : c ∈ joinSpace (sapiAux (p.data.map pyLower) [] [] []) := hc
    rcases mem_joinSpace _ c hc' with h | ⟨t, ht, hct⟩
    · exact Or.inl h
    · exact Or.inr
        (((sapiAux_ok (p.data.map pyLower) [] [] [] (by simp) (by simp) (by simp)) t ht).2 c hct)

theorem sapi_no_metachar {m : Char} (hm1 : m ≠ ' ') (hm2 : okChar m = false) :
    ∀ p : String, m ∉ (pinyin_to_sapi p).data := by
  intro p hmem
  rcases sapi_chars_ok p m hmem with h | h
  · exact hm1 h
  · rw [hm2] at h
    cases h

set_option maxRecDepth 20000 in
/-- C9 counterexample: the claim says markup metacharacters in the hint appear
unescaped inside the phoneme attribute.  But the normalizer drops them: the
double quote in the hint "x\"y" never reaches the attribute (the ph value is
"xy5", the same as for hint "xy"). -/
theorem C9_counterexample :
    pinyin_to_sapi "x\"y" = "xy5" ∧
    ('"' ∈ ("x\"y" : String).data) ∧
    '"' ∉ (pinyin_to_sapi "x\"y").data ∧
    build_ssml "谢" "zh-CN-XiaoxiaoNeural" (some "x\"y") =
      build_ssml "谢" "zh-CN-XiaoxiaoNeural" (some "xy") := by
  exact ⟨by decide, by decide, by decide, by decide⟩

/-- C9 (amended): the builder performs no XML escaping: the utterance text and
the normalized hint are interpolated verbatim into the document; however, a
markup metacharacter in the hint never reaches the phoneme attribute, because
the normalizer only ever emits alphabetic and digit characters and spaces. -/
theorem C9_no_escaping :
    (∀ (text vid p : String), p ≠ "" →
      build_ssml text vid (some p) =
        ssmlHead ++ vid ++ ssmlMid ++
          (phonemeOpen ++ pinyin_to_sapi p ++ phonemeMid ++ text ++ phonemeClose) ++ ssmlTail) ∧
    (∀ text vid : String,
      build_ssml text vid none = ssmlHead ++ vid ++ ssmlMid ++ text ++ ssmlTail) ∧
    (∀ p : String,
      '"' ∉ (pinyin_to_sapi p).data ∧ '<' ∉ (pinyin_to_sapi p).data ∧
      '>' ∉ (pinyin_to_sapi p).data ∧ '&' ∉ (pinyin_to_sapi p).data) := by
  refine ⟨?_, fun text vid => rfl, ?_⟩
  · intro text vid p hp
    simp [build_ssml, hp]
  · intro p
    exact ⟨sapi_no_metachar (by decide) (by decide) p,
      sapi_no_metachar (by decide) (by decide) p,
      sapi_no_metachar (by decide) (by decide) p,
      sapi_no_metachar (by decide) (by decide) p⟩

/-- C9 witness: verbatim interpolation at text "a<b" and hint "x\"y"; the
quote from the hint is absent from the normalized value. -/
theorem C9_witness :
    ("x\"y" : String) ≠ "" ∧
    build_ssml "a<b" "v" (some "x\"y") =
      ssmlHead ++ "v" ++ ssmlMid ++
        (phonemeOpen ++ pinyin_to_sapi "x\"y" ++ phonemeMid ++ "a<b" ++ phonemeClose) ++
        ssmlTail ∧
    '"' ∉ (pinyin_to_sapi "x\"y").data :=
  ⟨by decide, C9_no_escaping.1 "a<b" "v" "x\"y" (by decide),
    (C9_no_escaping.2.2 "x\"y").1⟩

/-- C10: the normalizer's output is the single-space join of nonempty,
space-free syllables: no leading space, no trailing space, no two consecutive
spaces, no empty syllable. -/
theorem C10_space_join_shape :
    ∀ s : String, ∃ ts : List String,
      pinyin_to_sapi s = spaceJoin ts ∧
      (∀ t ∈ ts, t ≠ "" ∧ ∀ c ∈ t.data, c ≠ ' ') ∧
      (pinyin_to_sapi s).data.head? ≠ some ' ' ∧
      (pinyin_to_sapi s).data.getLast? ≠ some ' ' ∧
      hasTwoSpaces (pinyin_to_sapi s).data = false := by
  intro s
  by_cases hs : s = ""
  · subst hs
    exact ⟨[], rfl, by simp, by decide, by decide, by decide⟩
  · have hinv := sapiAux_ok (s.data.map pyLower) [] [] [] (by simp) (by simp) (by simp)
    have hgood : ∀ t ∈ sapiAux (s.data.map pyLower) [] [] [],
        t ≠ [] ∧ ∀ c ∈ t, c ≠ ' ' := by
      intro t ht
      obtain ⟨h1, h2⟩ := hinv t ht
      refine ⟨h1, ?_⟩
      intro c hc hcsp
      have hok := h2 c hc
      rw [hcsp] at hok
      exact absurd hok (by decide)
    have hout : pinyin_to_sapi s =
        String.mk (joinSpace (sapiAux (s.data.map pyLower) [] [] [])) := by
      unfold pinyin_to_sapi
      rw [if_neg hs]
    refine ⟨(sapiAux (s.data.map pyLower) [] [] []).map String.mk, ?_, ?_, ?_, ?_, ?_⟩
    · rw [hout]
      unfold spaceJoin
      rw [List.map_map, show (String.data ∘ String.mk) = id from rfl, List.map_id]
    · intro t ht
      obtain ⟨x, hx, rfl⟩ := List.mem_map.1 ht
      obtain ⟨h1, h2⟩ := hgood x hx
      exact ⟨by rw [Ne, mk_eq_empty]; exact h1, h2⟩
    · rw [hout]
      exact joinSpace_head _ hgood
    · rw [hout]
      exact joinSpace_getLast _ hgood
    · rw [hout]
      exact hasTwoSpaces_joinSpace _ hgood
